import Mathlib

/-!
Verification of the KnowledgeAtlas repository: a shallow embedding of the
in-memory multigraph data model (`data_model.py`), the visibility/selection
resolver (`visualization.py`), the JSON interchange layer (`persistence.py`)
and the rename/delete editing flows (`app.py`), together with proofs of the
behavioural properties stated in the specification.

The graph is a networkx `MultiDiGraph`: an insertion-ordered association list
of named nodes with attributes, plus an insertion-ordered list of directed,
labelled parallel edges.
-/

namespace KnowledgeAtlas

/-- `NodeType` enumeration from `data_model.py`. -/
inductive NodeType where
  | main_topic
  | sub_topic
  | paper
  | concept
  | method
  | tool
  | dataset
  | other
deriving DecidableEq, Repr

/-- The canonical string of a `NodeType` (`NodeType.value` in the source). -/
def NodeType.value : NodeType → String
  | .main_topic => "main_topic"
  | .sub_topic => "sub_topic"
  | .paper => "paper"
  | .concept => "concept"
  | .method => "method"
  | .tool => "tool"
  | .dataset => "dataset"
  | .other => "other"

/-- `NodeMetadata` dataclass: optional URL and description (timestamps carry
no behavioural content for the verified properties and are omitted). -/
structure NodeMetadata where
  url : Option String := none
  description : Option String := none
deriving DecidableEq, Repr

/-- The per-node attribute dictionary stored by `KnowledgeGraph.add_node`:
`{'type': …, 'level': …, 'metadata': …}`. -/
structure NodeAttrs where
  type : NodeType
  level : Int
  metadata : NodeMetadata
deriving DecidableEq, Repr

/-- One directed labelled edge of the multigraph, carrying its
`relationship` attribute. -/
structure Edge where
  source : String
  target : String
  relationship : String
deriving DecidableEq, Repr

/-- The networkx `MultiDiGraph` owned by `KnowledgeGraph`: nodes in insertion
order (names are unique in any graph built through the API), and the multiset
of edges in insertion order.  The inner integer edge keys of networkx are
represented by the position of an edge in the list: the last listed edge
between an ordered pair is the most recently added one. -/
structure KnowledgeGraph where
  nodes : List (String × NodeAttrs)
  edges : List Edge
deriving DecidableEq, Repr

/-- `name in self.graph`. -/
def KnowledgeGraph.hasNode (g : KnowledgeGraph) (name : String) : Bool :=
  g.nodes.any (fun p => p.1 == name)

/-- Attribute lookup `self.graph.nodes[name]`. -/
def KnowledgeGraph.nodeAttrs (g : KnowledgeGraph) (name : String) : Option NodeAttrs :=
  (g.nodes.find? (fun p => p.1 == name)).map Prod.snd

/-- `self.graph.nodes[name].get('level')`. -/
def KnowledgeGraph.nodeLevel (g : KnowledgeGraph) (name : String) : Option Int :=
  (g.nodeAttrs name).map NodeAttrs.level

/-- `KnowledgeGraph.add_node` from `data_model.py`: fails without mutation when
the name already exists, otherwise inserts the node with its attributes.
(The optional extra `attributes` dict is never passed by the application and
is omitted.) -/
def KnowledgeGraph.add_node (g : KnowledgeGraph) (name : String) (node_type : NodeType)
    (level : Int) (metadata : NodeMetadata := {}) : KnowledgeGraph × Bool :=
  if g.hasNode name then (g, false)
  else ({ g with nodes := g.nodes ++ [(name, ⟨node_type, level, metadata⟩)] }, true)

/-- `KnowledgeGraph.add_edge` from `data_model.py`: fails when either endpoint
is missing, otherwise appends a new parallel edge. -/
def KnowledgeGraph.add_edge (g : KnowledgeGraph) (source target : String)
    (relationship : String := "related_to") : KnowledgeGraph × Bool :=
  if g.hasNode source && g.hasNode target then
    ({ g with edges := g.edges ++ [⟨source, target, relationship⟩] }, true)
  else (g, false)

/-- `KnowledgeGraph.get_edges_between`: all edges from `source` to `target`
with their attributes (networkx `get_edge_data(source, target).values()`,
i.e. outgoing edges of `source` only). -/
def KnowledgeGraph.get_edges_between (g : KnowledgeGraph) (source target : String) : List Edge :=
  if g.hasNode source && g.hasNode target then
    g.edges.filter (fun e => e.source == source && e.target == target)
  else []

/-- networkx `graph.successors(n)` / `graph.neighbors(n)` (for a `DiGraph`
these coincide): the distinct targets of outgoing edges of `n`. -/
def KnowledgeGraph.successors (g : KnowledgeGraph) (n : String) : List String :=
  ((g.edges.filter (fun e => e.source == n)).map Edge.target).dedup

/-- networkx `graph.predecessors(n)`: the distinct sources of incoming edges. -/
def KnowledgeGraph.predecessors (g : KnowledgeGraph) (n : String) : List String :=
  ((g.edges.filter (fun e => e.target == n)).map Edge.source).dedup

/-- `KnowledgeGraph.get_connected_nodes` from `data_model.py`: iterates
`self.graph.neighbors(node)` (successors of the `MultiDiGraph`), keeping a
neighbor when no relationship filter is given or some edge of
`get_edges_between(node, neighbor)` carries the requested relationship. -/
def KnowledgeGraph.get_connected_nodes (g : KnowledgeGraph) (node : String)
    (relationship : Option String := none) : List String :=
  if g.hasNode node then
    (g.successors node).filter (fun nb =>
      match relationship with
      | none => true
      | some r => (g.get_edges_between node nb).any (fun e => e.relationship == r))
  else []

/-- Well-formedness of a graph reachable through the application: edge
endpoints exist and node names are unique.  Every graph built by the
`KnowledgeGraph` API satisfies this; networkx raises (and the rendering
pipeline aborts) outside it. -/
def KnowledgeGraph.Wf (g : KnowledgeGraph) : Prop :=
  (∀ e ∈ g.edges, g.hasNode e.source = true ∧ g.hasNode e.target = true) ∧
  (g.nodes.map Prod.fst).Nodup

instance (g : KnowledgeGraph) : Decidable g.Wf := by
  unfold KnowledgeGraph.Wf; exact inferInstance

/-- networkx `graph.remove_node(name)`: drops the node and every incident
edge. -/
def nxRemoveNode (g : KnowledgeGraph) (name : String) : KnowledgeGraph :=
  { nodes := g.nodes.filter (fun p => p.1 != name),
    edges := g.edges.filter (fun e => e.source != name && e.target != name) }

/-- networkx `MultiDiGraph.remove_edge(source, target)` with no key, as called
by the delete-edge and edit-edge flows of `app.py`: the inner keyed dict for
the ordered pair is `popitem`-ed, removing the single most recently added
parallel edge between `source` and `target`. -/
def nxRemoveEdge (g : KnowledgeGraph) (source target : String) : KnowledgeGraph :=
  { g with
    edges := (g.edges.reverse.eraseP (fun e => e.source == source && e.target == target)).reverse }

/-- The edit-node flow of `app.py` when the name is changed: it captures
`old_edges = graph.edges(old, data=True)` (networkx: the *outgoing* edges of
`old` only), removes the old node, and tries to add the new name.  On success
the captured edges are re-created with the new name substituted; on a name
collision the old node is re-added with its captured attributes and the
captured edges are re-created unchanged. -/
def renameNode (g : KnowledgeGraph) (oldName newName : String) (newType : NodeType)
    (newLevel : Int) (newMeta : NodeMetadata) : KnowledgeGraph × Bool :=
  match g.nodeAttrs oldName with
  | none => (g, false)
  | some node_data =>
    let old_edges := g.edges.filter (fun e => e.source == oldName)
    let g1 := nxRemoveNode g oldName
    let res := g1.add_node newName newType newLevel newMeta
    if res.2 then
      (old_edges.foldl (fun h e =>
        (h.add_edge (if e.source == oldName then newName else e.source)
                    (if e.target == oldName then newName else e.target)
                    e.relationship).1) res.1, true)
    else
      let g3 := (res.1.add_node oldName node_data.type node_data.level node_data.metadata).1
      (old_edges.foldl (fun h e => (h.add_edge e.source e.target e.relationship).1) g3, false)

/-! ### Visibility resolver (`generate_graph_visualization`, `visualization.py`)

`show_levels : Option (List Int)` and `show_edge_types : Option (List String)`
model the Python parameters, `none` being the `None` "show all" sentinel.
`selected_nodes` is the selection set. -/

/-- First pass of the resolver: with a level filter, the nodes whose `level`
attribute is in `show_levels`; with the `None` sentinel, all nodes. -/
def levelSeed (g : KnowledgeGraph) (show_levels : Option (List Int)) : List String :=
  match show_levels with
  | some ls => (g.nodes.filter (fun p => decide (p.2.level ∈ ls))).map Prod.fst
  | none => g.nodes.map Prod.fst

/-- The final visible-node set of `generate_graph_visualization`: the level
seed unioned with `selected_nodes` regardless of level, then the undirected
neighbors (predecessors and successors) of that set, re-filtered by their own
level (or all of them under the `None` sentinel).  Lists model the Python
sets; only membership is meaningful. -/
def visibleNodes (g : KnowledgeGraph) (show_levels : Option (List Int))
    (selected_nodes : List String) : List String :=
  let seed := levelSeed g show_levels ++ selected_nodes
  let connected := seed.flatMap (fun n => g.predecessors n ++ g.successors n)
  let refiltered :=
    match show_levels with
    | some ls =>
      connected.filter (fun n => (g.nodeLevel n).elim false (fun l => decide (l ∈ ls)))
    | none => connected
  seed ++ refiltered

/-- The rendered edge list: an edge of the graph survives iff its
`relationship` passes the edge-type filter (`None` shows all) and both
endpoints are in the final visible-node set. -/
def visibleEdges (g : KnowledgeGraph) (show_levels : Option (List Int))
    (selected_nodes : List String) (show_edge_types : Option (List String)) : List Edge :=
  let vis := visibleNodes g show_levels selected_nodes
  g.edges.filter (fun e =>
    (match show_edge_types with
     | none => true
     | some ts => decide (e.relationship ∈ ts)) &&
    decide (e.source ∈ vis) && decide (e.target ∈ vis))

/-! ### Concrete graphs used as test inputs -/

/-- The scenario graph of the specification: `X` at level 0, `Y` at level 1,
`Z` at level 2, with edges `X → Y` (`related_to`) and `Y → Z`
(`depends_on`). -/
def gXYZ : KnowledgeGraph :=
  { nodes := [("X", ⟨.main_topic, 0, {}⟩), ("Y", ⟨.sub_topic, 1, {}⟩),
              ("Z", ⟨.paper, 2, {}⟩)],
    edges := [⟨"X", "Y", "related_to"⟩, ⟨"Y", "Z", "depends_on"⟩] }

/-- Two nodes with a single edge `A → B`. -/
def gAB : KnowledgeGraph :=
  { nodes := [("A", ⟨.main_topic, 0, {}⟩), ("B", ⟨.paper, 1, {}⟩)],
    edges := [⟨"A", "B", "related_to"⟩] }

/-- Two nodes with two parallel edges `u → v`. -/
def gPar : KnowledgeGraph :=
  { nodes := [("u", ⟨.concept, 0, {}⟩), ("v", ⟨.concept, 0, {}⟩)],
    edges := [⟨"u", "v", "belongs_to"⟩, ⟨"u", "v", "depends_on"⟩] }

/-- Three nodes `A`, `B`, `C` with a single incoming edge `C → A`. -/
def gRen : KnowledgeGraph :=
  { nodes := [("A", ⟨.concept, 1, {}⟩), ("B", ⟨.paper, 0, {}⟩), ("C", ⟨.tool, 2, {}⟩)],
    edges := [⟨"C", "A", "depends_on"⟩] }

/-! ### Membership characterisations of adjacency -/

theorem mem_successors {g : KnowledgeGraph} {n m : String} :
    m ∈ g.successors n ↔ ∃ e ∈ g.edges, e.source = n ∧ e.target = m := by
  simp only [KnowledgeGraph.successors, List.mem_dedup, List.mem_map, List.mem_filter,
    beq_iff_eq]
  constructor
  · rintro ⟨e, ⟨he, hs⟩, ht⟩
    exact ⟨e, he, hs, ht⟩
  · rintro ⟨e, he, hs, ht⟩
    exact ⟨e, ⟨he, hs⟩, ht⟩

theorem mem_predecessors {g : KnowledgeGraph} {n m : String} :
    m ∈ g.predecessors n ↔ ∃ e ∈ g.edges, e.source = m ∧ e.target = n := by
  simp only [KnowledgeGraph.predecessors, List.mem_dedup, List.mem_map, List.mem_filter,
    beq_iff_eq]
  constructor
  · rintro ⟨e, ⟨he, ht⟩, hs⟩
    exact ⟨e, he, hs, ht⟩
  · rintro ⟨e, he, hs, ht⟩
    exact ⟨e, ⟨he, ht⟩, hs⟩

/-! ### C9 — duplicate `add_node` -/

/-- C9: calling `add_node` with a name that already exists returns `false` and
leaves the graph unchanged (node count and all existing attributes intact). -/
theorem add_node_duplicate_no_mutation (g : KnowledgeGraph) (name : String)
    (ty : NodeType) (lv : Int) (md : NodeMetadata) (h : g.hasNode name = true) :
    g.add_node name ty lv md = (g, false) := by
  simp [KnowledgeGraph.add_node, h]

theorem add_node_duplicate_no_mutation_witness :
    gAB.hasNode "A" = true ∧ gAB.add_node "A" .concept 2 {} = (gAB, false) :=
  ⟨by decide, add_node_duplicate_no_mutation gAB "A" .concept 2 {} (by decide)⟩

/-! ### C5 — `get_connected_nodes` ignores incoming edges -/

/-- C5 counterexample: in `gAB` the node `B` has an incoming edge from `A`,
yet `get_connected_nodes "B"` does not return `A` — networkx
`MultiDiGraph.neighbors` yields successors only, so incoming-edge neighbors
are not reported, contrary to the claim's "outgoing or incoming". -/
theorem get_connected_nodes_misses_incoming :
    (∃ e ∈ gAB.edges, e.source = "A" ∧ e.target = "B") ∧
    "A" ∉ gAB.get_connected_nodes "B" none := by decide

/-- C5 (amended): for a node of a well-formed graph, `get_connected_nodes`
returns exactly the *successors* — the nodes reachable by at least one
outgoing edge — and with a relationship argument exactly those targets
connected by at least one outgoing edge carrying that label. -/
theorem get_connected_nodes_spec (g : KnowledgeGraph) (hWf : g.Wf) (n m : String) :
    (m ∈ g.get_connected_nodes n none ↔
      g.hasNode n = true ∧ ∃ e ∈ g.edges, e.source = n ∧ e.target = m) ∧
    (∀ r, m ∈ g.get_connected_nodes n (some r) ↔
      g.hasNode n = true ∧
        ∃ e ∈ g.edges, e.source = n ∧ e.target = m ∧ e.relationship = r) := by
  unfold KnowledgeGraph.get_connected_nodes
  by_cases hn : g.hasNode n = true
  · simp only [hn, if_true, true_and]
    constructor
    · simp [mem_successors]
    · intro r
      constructor
      · intro hm
        rcases List.mem_filter.1 hm with ⟨hsucc, hrel⟩
        rcases mem_successors.1 hsucc with ⟨e, he, hs, ht⟩
        have hmnode : g.hasNode m = true := ht ▸ (hWf.1 e he).2
        simp only [KnowledgeGraph.get_edges_between, hn, hmnode, Bool.and_self,
          if_true, List.any_eq_true, List.mem_filter, Bool.and_eq_true,
          beq_iff_eq] at hrel
        rcases hrel with ⟨e', ⟨he', hs', ht'⟩, hr'⟩
        exact ⟨e', he', hs', ht', hr'⟩
      · rintro ⟨e, he, hs, ht, hr⟩
        have hmnode : g.hasNode m = true := ht ▸ (hWf.1 e he).2
        refine List.mem_filter.2 ⟨mem_successors.2 ⟨e, he, hs, ht⟩, ?_⟩
        simp only [KnowledgeGraph.get_edges_between, hn, hmnode, Bool.and_self,
          if_true, List.any_eq_true, List.mem_filter, Bool.and_eq_true,
          beq_iff_eq]
        exact ⟨e, ⟨he, hs, ht⟩, hr⟩
  · simp only [if_neg hn]
    constructor
    · simp [hn]
    · intro r; simp [hn]

theorem get_connected_nodes_spec_witness :
    ("B" ∈ gAB.get_connected_nodes "A" none ↔
      gAB.hasNode "A" = true ∧ ∃ e ∈ gAB.edges, e.source = "A" ∧ e.target = "B") :=
  (get_connected_nodes_spec gAB (by decide) "A" "B").1

/-! ### C6 — `remove_edge` and parallel edges -/

/-- C6 counterexample: `gPar` has two parallel edges `u → v`; the delete-edge
flow (`graph.remove_edge(u, v)`, no key) leaves one of them in place, so the
removal does *not* remove all parallel edges between the ordered pair. -/
theorem remove_edge_not_all_parallel :
    gPar.edges.countP (fun e => e.source == "u" && e.target == "v") = 2 ∧
    (nxRemoveEdge gPar "u" "v").edges.countP
      (fun e => e.source == "u" && e.target == "v") = 1 := by decide

theorem eraseP_append_of_no_match (p : Edge → Bool) (l₂ l₁ : List Edge) (e : Edge)
    (h : ∀ x ∈ l₂, p x = false) (hpe : p e = true) :
    (l₂ ++ e :: l₁).eraseP p = l₂ ++ l₁ := by
  induction l₂ with
  | nil => simp [List.eraseP_cons, hpe]
  | cons a t ih =>
    have ha : p a = false := h a (List.mem_cons_self a t)
    simp [List.eraseP_cons, ha, ih (fun x hx => h x (List.mem_cons_of_mem a hx))]

/-- C6 (amended): `remove_edge(source, target)` removes exactly one parallel
edge — the most recently added edge between that ordered pair — and leaves
every other edge (including the remaining parallel edges of the pair)
untouched, in order. -/
theorem remove_edge_removes_most_recent (g : KnowledgeGraph) (s t : String)
    (l₁ l₂ : List Edge) (e : Edge) (hsplit : g.edges = l₁ ++ e :: l₂)
    (he : e.source = s ∧ e.target = t)
    (hlast : ∀ e' ∈ l₂, ¬(e'.source = s ∧ e'.target = t)) :
    (nxRemoveEdge g s t).edges = l₁ ++ l₂ := by
  have hno : ∀ x ∈ l₂.reverse, (x.source == s && x.target == t) = false := by
    intro x hx
    refine Bool.eq_false_iff.mpr ?_
    simp only [ne_eq, Bool.and_eq_true, beq_iff_eq]
    exact hlast x (List.mem_reverse.1 hx)
  have hpe : (e.source == s && e.target == t) = true := by simp [he.1, he.2]
  unfold nxRemoveEdge
  simp only [hsplit, List.reverse_append, List.reverse_cons]
  rw [List.append_assoc, List.singleton_append,
    eraseP_append_of_no_match _ l₂.reverse l₁.reverse e hno hpe]
  simp

theorem remove_edge_removes_most_recent_witness :
    (nxRemoveEdge gPar "u" "v").edges = [Edge.mk "u" "v" "belongs_to"] :=
  remove_edge_removes_most_recent gPar "u" "v" [Edge.mk "u" "v" "belongs_to"] []
    (Edge.mk "u" "v" "depends_on") (by decide) (by decide) (by decide)

/-! ### C4 — rename rollback loses incoming edges -/

/-- C4: evaluating the rename flow at the failing input.  In `gRen` the node
`A` has one incoming edge `C → A`; renaming `A` to the existing name `B`
reports failure, but the restored graph has lost the edge `C → A`: the flow
captures only `graph.edges(A)` (outgoing edges) before removal, so the
rollback is not the full restoration the specification requires. -/
theorem rename_collision_loses_incoming_edge :
    (renameNode gRen "A" "B" .concept 1 {}).2 = false ∧
    gRen.edges = [Edge.mk "C" "A" "depends_on"] ∧
    (renameNode gRen "A" "B" .concept 1 {}).1.edges = [] ∧
    (renameNode gRen "A" "B" .concept 1 {}).1 ≠ gRen := by decide

/-! ### C1, C2, C3 — visibility resolver properties -/

theorem find?_eq_of_nodup {l : List (String × NodeAttrs)} {n : String} {a : NodeAttrs}
    (hnd : (l.map Prod.fst).Nodup) (hmem : (n, a) ∈ l) :
    l.find? (fun p => p.1 == n) = some (n, a) := by
  induction l with
  | nil => cases hmem
  | cons p t ih =>
    rw [List.map_cons, List.nodup_cons] at hnd
    rcases List.mem_cons.1 hmem with heq | hmem'
    · rw [← heq]
      simp [List.find?]
    · have hn : n ∈ t.map Prod.fst := List.mem_map.2 ⟨(n, a), hmem', rfl⟩
      have hne : (p.1 == n) = false := by
        refine Bool.eq_false_iff.mpr ?_
        simp only [ne_eq, beq_iff_eq]
        intro h
        exact hnd.1 (h ▸ hn)
      rw [List.find?, hne]
      exact ih hnd.2 hmem'

theorem nodeAttrs_of_mem {g : KnowledgeGraph} {n : String} {a : NodeAttrs}
    (hnd : (g.nodes.map Prod.fst).Nodup) (hmem : (n, a) ∈ g.nodes) :
    g.nodeAttrs n = some a := by
  unfold KnowledgeGraph.nodeAttrs
  rw [find?_eq_of_nodup hnd hmem]
  rfl

/-- C1: a node whose level is filtered out and which is not explicitly
selected is never in the visible-node set, even when it is an undirected
neighbor of a visible node — the neighbor-expansion pass re-filters every
candidate by its own level. -/
theorem hidden_level_node_not_visible (g : KnowledgeGraph) (ls : List Int)
    (selected : List String) (n : String) (a : NodeAttrs)
    (hWf : g.Wf) (_hscope : ∀ s ∈ selected, g.hasNode s = true)
    (hmem : (n, a) ∈ g.nodes) (hlev : a.level ∉ ls) (hsel : n ∉ selected) :
    n ∉ visibleNodes g (some ls) selected := by
  intro hvis
  have hattrs : g.nodeAttrs n = some a := nodeAttrs_of_mem hWf.2 hmem
  simp only [visibleNodes, levelSeed, List.mem_append] at hvis
  rcases hvis with (hseed | hsel') | hconn
  · rcases List.mem_map.1 hseed with ⟨p, hp, hp1⟩
    rcases List.mem_filter.1 hp with ⟨hpmem, hplev⟩
    have hpeta : p = (n, p.2) := by
      rw [← hp1]
    have : g.nodeAttrs n = some p.2 := nodeAttrs_of_mem hWf.2 (hpeta ▸ hpmem)
    rw [hattrs] at this
    have hpa : p.2 = a := by injection this.symm
    rw [hpa] at hplev
    exact hlev (of_decide_eq_true hplev)
  · exact hsel hsel'
  · have hfilt := (List.mem_filter.1 hconn).2
    rw [KnowledgeGraph.nodeLevel, hattrs] at hfilt
    have hdec : decide (a.level ∈ ls) = true := hfilt
    exact hlev (of_decide_eq_true hdec)

theorem hidden_level_node_not_visible_witness :
    "Z" ∉ visibleNodes gXYZ (some [0, 1]) [] :=
  hidden_level_node_not_visible gXYZ [0, 1] [] "Z" ⟨.paper, 2, {}⟩
    (by decide) (by decide) (by decide) (by decide) (by decide)

/-- C2: an explicitly selected node of the graph is always in the
visible-node set, even when its level is filtered out — selection is unioned
into the seed set before neighbor expansion and is never re-filtered. -/
theorem selected_node_always_visible (g : KnowledgeGraph)
    (show_levels : Option (List Int)) (selected : List String) (n : String)
    (_hscope : ∀ s ∈ selected, g.hasNode s = true) (hsel : n ∈ selected) :
    n ∈ visibleNodes g show_levels selected := by
  simp only [visibleNodes, List.mem_append]
  exact Or.inl (Or.inr hsel)

theorem selected_node_always_visible_witness :
    "Z" ∈ visibleNodes gXYZ (some [0, 1]) ["Z"] :=
  selected_node_always_visible gXYZ (some [0, 1]) ["Z"] "Z" (by decide) (by decide)

/-- C3: an edge is in the rendered edge list iff it is an edge of the graph,
both endpoints are in the final visible-node set, and its relationship passes
the edge-type filter (vacuously under the `None` "all" sentinel); the
edge-type condition is independent of the node-level filtering. -/
theorem edge_rendered_iff (g : KnowledgeGraph) (show_levels : Option (List Int))
    (selected : List String) (show_edge_types : Option (List String)) (e : Edge) :
    e ∈ visibleEdges g show_levels selected show_edge_types ↔
      e ∈ g.edges ∧
      e.source ∈ visibleNodes g show_levels selected ∧
      e.target ∈ visibleNodes g show_levels selected ∧
      (∀ ts, show_edge_types = some ts → e.relationship ∈ ts) := by
  simp only [visibleEdges, List.mem_filter, Bool.and_eq_true, decide_eq_true_eq]
  cases show_edge_types with
  | none =>
    constructor
    · rintro ⟨he, ⟨⟨-, hs⟩, ht⟩⟩
      exact ⟨he, hs, ht, fun ts h => by cases h⟩
    · rintro ⟨he, hs, ht, -⟩
      exact ⟨he, ⟨⟨rfl, hs⟩, ht⟩⟩
  | some ts =>
    constructor
    · rintro ⟨he, ⟨⟨hr, hs⟩, ht⟩⟩
      exact ⟨he, hs, ht, fun ts' h => by cases h; exact of_decide_eq_true hr⟩
    · rintro ⟨he, hs, ht, hr⟩
      exact ⟨he, ⟨⟨decide_eq_true (hr ts rfl), hs⟩, ht⟩⟩

/-! ### JSON interchange (`persistence.py`)

`import_from_json` and `export_to_json` are modelled on the parsed JSON
values: a document is a `nodes` array and an `edges` array of records whose
optional fields are `none` when the key is absent or explicitly `null`. -/

/-- ASCII lowering of one character, as Python `str.lower` acts on the ASCII
type names compared at the import boundary. -/
def lowerChar (c : Char) : Char :=
  if 'A' ≤ c ∧ c ≤ 'Z' then Char.ofNat (c.toNat + 32) else c

/-- Python `s.lower()`, restricted to ASCII (which covers every string that
the importer compares against the enumeration). -/
def lowerString (s : String) : String := ⟨s.data.map lowerChar⟩

/-- A node object of the JSON interchange schema after parsing.  The `id`
field is taken as present (`import_from_json` skips objects without one
before any of the behaviour verified here). -/
structure JsonNode where
  id : String
  type : Option String := none
  level : Option Int := none
  url : Option String := none
  description : Option String := none
deriving DecidableEq, Repr

/-- An edge object of the JSON interchange schema. -/
structure JsonEdge where
  source : Option String := none
  target : Option String := none
  relationship : Option String := none
deriving DecidableEq, Repr

/-- A parsed JSON document with its `nodes` and `edges` arrays. -/
structure JsonDoc where
  nodes : List JsonNode
  edges : List JsonEdge
deriving DecidableEq, Repr

/-- `valid_types = {t.value: t for t in NodeType}`. -/
def validTypes : List (String × NodeType) :=
  [("main_topic", .main_topic), ("sub_topic", .sub_topic), ("paper", .paper),
   ("concept", .concept), ("method", .method), ("tool", .tool),
   ("dataset", .dataset), ("other", .other)]

def lookupType (s : String) : Option NodeType :=
  (validTypes.find? (fun p => p.1 == s)).map Prod.snd

/-- `node_data.get('type', '').lower() if node_data.get('type') else None`,
followed by the falsy fallback to `'other'`: a missing, null or empty type
becomes `'other'`; every other string is lowercased. -/
def effectiveTypeStr (jn : JsonNode) : String :=
  match jn.type with
  | none => "other"
  | some s => if s = "" then "other" else lowerString s

/-- Raw networkx `graph.add_node` with attribute keywords: updates the
attributes in place when the name already exists, otherwise appends. -/
def nxAddNode (g : KnowledgeGraph) (name : String) (a : NodeAttrs) : KnowledgeGraph :=
  if g.hasNode name then
    { g with nodes := g.nodes.map (fun p => if p.1 == name then (name, a) else p) }
  else { g with nodes := g.nodes ++ [(name, a)] }

/-- The attributes a JSON node is imported with when its effective type
string is in the enumeration: the looked-up type, `level` defaulting to 0,
and `url`/`description` collected into the metadata. -/
def importedAttrs (jn : JsonNode) : Option NodeAttrs :=
  (lookupType (effectiveTypeStr jn)).map
    (fun ty => ⟨ty, jn.level.getD 0, ⟨jn.url, jn.description⟩⟩)

/-- Total version of `importedAttrs` used to state list-level lemmas. -/
def importedAttrsD (jn : JsonNode) : NodeAttrs :=
  (importedAttrs jn).getD ⟨.other, 0, {}⟩

/-- Import of one node object of `import_from_json`: the effective type
string is looked up in `valid_types`; on failure the node is skipped (with a
printed diagnostic) and the loop continues. -/
def importNode (g : KnowledgeGraph) (jn : JsonNode) : KnowledgeGraph :=
  match importedAttrs jn with
  | none => g
  | some a => nxAddNode g jn.id a

def importNodes (jns : List JsonNode) (g : KnowledgeGraph) : KnowledgeGraph :=
  jns.foldl importNode g

/-- Import of one edge object: skipped when `source`/`target` is missing,
null or the empty string, or names a node absent from the imported graph;
otherwise added with relationship defaulting to `'related_to'`. -/
def importEdge (g : KnowledgeGraph) (je : JsonEdge) : KnowledgeGraph :=
  match je.source, je.target with
  | some s, some t =>
    if s = "" ∨ t = "" then g
    else if g.hasNode s && g.hasNode t then
      { g with edges := g.edges ++ [⟨s, t, je.relationship.getD "related_to"⟩] }
    else g
  | _, _ => g

def importEdges (jes : List JsonEdge) (g : KnowledgeGraph) : KnowledgeGraph :=
  jes.foldl importEdge g

/-- `GraphPersistence.import_from_json` after JSON parsing: nodes are
imported best-effort, edges only when at least one node was accepted, and the
whole import is rejected (`None`) when no valid node remains. -/
def import_from_json (doc : JsonDoc) : Option KnowledgeGraph :=
  let g0 := importNodes doc.nodes ⟨[], []⟩
  let g1 := if 0 < g0.nodes.length then importEdges doc.edges g0 else g0
  if g1.nodes.length = 0 then none else some g1

/-- `GraphPersistence.export_to_json`: one JSON node object per graph node
(canonical type string, level, url and description from the metadata), one
JSON edge object per edge. -/
def export_to_json (g : KnowledgeGraph) : JsonDoc :=
  { nodes := g.nodes.map (fun p =>
      { id := p.1, type := some p.2.type.value, level := some p.2.level,
        url := p.2.metadata.url, description := p.2.metadata.description }),
    edges := g.edges.map (fun e =>
      { source := some e.source, target := some e.target,
        relationship := some e.relationship }) }

/-- The edge a valid JSON edge object is imported as. -/
def importedEdge (je : JsonEdge) : Edge :=
  ⟨je.source.getD "", je.target.getD "", je.relationship.getD "related_to"⟩

/-- A well-formed interchange document for the round-trip property: at least
one node; distinct nonempty node ids; every node with an explicit level and a
canonical (nonempty, already-lowercase, enumerated) type string; every edge
with explicit nonempty endpoints naming nodes of the document and an explicit
relationship. -/
def JsonDoc.WellFormed (doc : JsonDoc) : Prop :=
  doc.nodes ≠ [] ∧
  (doc.nodes.map JsonNode.id).Nodup ∧
  (∀ jn ∈ doc.nodes, jn.id ≠ "" ∧ jn.type ≠ none ∧ jn.type.getD "" ≠ "" ∧
    lowerString (jn.type.getD "") = jn.type.getD "" ∧
    (lookupType (jn.type.getD "")).isSome = true ∧ jn.level ≠ none) ∧
  (∀ je ∈ doc.edges, je.source ≠ none ∧ je.source.getD "" ≠ "" ∧
    je.target ≠ none ∧ je.target.getD "" ≠ "" ∧ je.relationship ≠ none ∧
    je.source.getD "" ∈ doc.nodes.map JsonNode.id ∧
    je.target.getD "" ∈ doc.nodes.map JsonNode.id)

instance (doc : JsonDoc) : Decidable doc.WellFormed := by
  unfold JsonDoc.WellFormed; exact inferInstance

/-! ### Basic import lemmas -/

theorem hasNode_iff {g : KnowledgeGraph} {n : String} :
    g.hasNode n = true ↔ n ∈ g.nodes.map Prod.fst := by
  simp only [KnowledgeGraph.hasNode, List.any_eq_true, List.mem_map, beq_iff_eq]

theorem hasNode_eq_false_iff {g : KnowledgeGraph} {n : String} :
    g.hasNode n = false ↔ n ∉ g.nodes.map Prod.fst := by
  rw [← Bool.not_eq_true]
  exact not_congr hasNode_iff

theorem importNode_edges (g : KnowledgeGraph) (jn : JsonNode) :
    (importNode g jn).edges = g.edges := by
  rw [importNode]
  cases importedAttrs jn with
  | none => rfl
  | some a =>
    show (nxAddNode g jn.id a).edges = g.edges
    unfold nxAddNode
    split <;> rfl

theorem importNodes_edges (jns : List JsonNode) (g : KnowledgeGraph) :
    (importNodes jns g).edges = g.edges := by
  induction jns generalizing g with
  | nil => rfl
  | cons jn rest ih =>
    show (importNodes rest (importNode g jn)).edges = g.edges
    rw [ih, importNode_edges]

theorem importEdge_nodes (g : KnowledgeGraph) (je : JsonEdge) :
    (importEdge g je).nodes = g.nodes := by
  rw [importEdge]
  cases je.source with
  | none => rfl
  | some s =>
    cases je.target with
    | none => rfl
    | some t =>
      dsimp only
      split
      · rfl
      · split <;> rfl

theorem importEdges_nodes (jes : List JsonEdge) (g : KnowledgeGraph) :
    (importEdges jes g).nodes = g.nodes := by
  induction jes generalizing g with
  | nil => rfl
  | cons je rest ih =>
    show (importEdges rest (importEdge g je)).nodes = g.nodes
    rw [ih, importEdge_nodes]

theorem importNodes_all_invalid (jns : List JsonNode) (g : KnowledgeGraph)
    (h : ∀ j ∈ jns, lookupType (effectiveTypeStr j) = none) :
    importNodes jns g = g := by
  induction jns generalizing g with
  | nil => rfl
  | cons jn rest ih =>
    have hskip : importedAttrs jn = none := by
      rw [importedAttrs, h jn (List.mem_cons_self _ _)]
      rfl
    show importNodes rest (importNode g jn) = g
    rw [importNode, hskip]
    exact ih g (fun j hj => h j (List.mem_cons_of_mem _ hj))

/-! ### C8 — invalid node types are skipped; empty import is rejected -/

/-- C8: a node whose effective (lowercased) type string is not in the
enumeration is individually skipped — importing it followed by the remaining
nodes is the same as importing the remaining nodes — and when every node of a
document is invalid this way, `import_from_json` rejects the whole import. -/
theorem import_invalid_type_skips_node (g : KnowledgeGraph) (jn : JsonNode)
    (jns : List JsonNode) (doc : JsonDoc)
    (hbad : lookupType (effectiveTypeStr jn) = none) :
    importNodes (jn :: jns) g = importNodes jns g ∧
    ((∀ j ∈ doc.nodes, lookupType (effectiveTypeStr j) = none) →
      import_from_json doc = none) := by
  constructor
  · have hskip : importedAttrs jn = none := by
      rw [importedAttrs, hbad]
      rfl
    show importNodes jns (importNode g jn) = importNodes jns g
    rw [importNode, hskip]
  · intro hall
    have h0 : importNodes doc.nodes ⟨[], []⟩ = ⟨[], []⟩ :=
      importNodes_all_invalid doc.nodes ⟨[], []⟩ hall
    simp [import_from_json, h0]

theorem import_invalid_type_skips_node_witness :
    (importNodes [JsonNode.mk "N" (some "Unknown_Kind") (some 0) none none,
                  JsonNode.mk "M" (some "paper") (some 1) none none] ⟨[], []⟩ =
     importNodes [JsonNode.mk "M" (some "paper") (some 1) none none] ⟨[], []⟩) ∧
    import_from_json
      ⟨[JsonNode.mk "N" (some "Unknown_Kind") (some 0) none none], []⟩ = none :=
  ⟨(import_invalid_type_skips_node ⟨[], []⟩
      (JsonNode.mk "N" (some "Unknown_Kind") (some 0) none none)
      [JsonNode.mk "M" (some "paper") (some 1) none none]
      ⟨[JsonNode.mk "N" (some "Unknown_Kind") (some 0) none none], []⟩
      (by decide)).1,
   (import_invalid_type_skips_node ⟨[], []⟩
      (JsonNode.mk "N" (some "Unknown_Kind") (some 0) none none)
      [JsonNode.mk "M" (some "paper") (some 1) none none]
      ⟨[JsonNode.mk "N" (some "Unknown_Kind") (some 0) none none], []⟩
      (by decide)).2 (by decide)⟩

/-! ### C10 — missing/empty type falls back to `'other'` -/

/-- C10: a node entry whose type is missing, null or the empty string is not
rejected: the fallback to `'other'` is applied before the enumeration check,
so the node is imported with type `other`; only a non-empty type string whose
lowercase form is outside the enumeration causes the node to be skipped. -/
theorem import_missing_type_defaults_other (g : KnowledgeGraph) (jn : JsonNode) :
    ((jn.type = none ∨ jn.type = some "") →
      importNode g jn =
        nxAddNode g jn.id ⟨.other, jn.level.getD 0, ⟨jn.url, jn.description⟩⟩) ∧
    (∀ s, jn.type = some s → s ≠ "" → lookupType (lowerString s) = none →
      importNode g jn = g) := by
  constructor
  · intro h
    have heff : effectiveTypeStr jn = "other" := by
      rcases h with h | h <;> simp [effectiveTypeStr, h]
    have hattrs : importedAttrs jn =
        some ⟨.other, jn.level.getD 0, ⟨jn.url, jn.description⟩⟩ := by
      rw [importedAttrs, heff]
      rfl
    rw [importNode, hattrs]
  · intro s hty hs hlk
    have heff : effectiveTypeStr jn = lowerString s := by
      simp [effectiveTypeStr, hty, hs]
    have hattrs : importedAttrs jn = none := by
      rw [importedAttrs, heff, hlk]
      rfl
    rw [importNode, hattrs]

theorem import_missing_type_defaults_other_witness :
    (importNode ⟨[], []⟩ (JsonNode.mk "P" none (some 3) none none) =
      nxAddNode ⟨[], []⟩ "P" ⟨.other, 3, ⟨none, none⟩⟩) ∧
    (importNode ⟨[], []⟩ (JsonNode.mk "Q" (some "Widget") (some 0) none none) =
      ⟨[], []⟩) :=
  ⟨(import_missing_type_defaults_other ⟨[], []⟩
      (JsonNode.mk "P" none (some 3) none none)).1 (Or.inl rfl),
   (import_missing_type_defaults_other ⟨[], []⟩
      (JsonNode.mk "Q" (some "Widget") (some 0) none none)).2 "Widget" rfl
      (by decide) (by decide)⟩

/-! ### C7 — JSON round trip -/

theorem map_eq_self_of_mem {α : Type} (l : List α) (f : α → α)
    (h : ∀ a ∈ l, f a = a) : l.map f = l := by
  induction l with
  | nil => rfl
  | cons a t ih =>
    rw [List.map_cons, h a (List.mem_cons_self _ _),
      ih (fun x hx => h x (List.mem_cons_of_mem _ hx))]

theorem lookupType_value {s : String} {ty : NodeType} (h : lookupType s = some ty) :
    ty.value = s := by
  rw [lookupType] at h
  cases hf : validTypes.find? (fun p => p.1 == s) with
  | none => rw [hf] at h; cases h
  | some p =>
    rw [hf] at h
    have hps0 := List.find?_some hf
    have hps : p.1 = s := by simpa using hps0
    have hpmem : p ∈ validTypes := List.mem_of_find?_eq_some hf
    have hval : p.2.value = p.1 := by fin_cases hpmem <;> rfl
    have hpty : p.2 = ty := by simpa using h
    rw [← hpty, hval, hps]

theorem importNodes_all_valid (jns : List JsonNode) (g : KnowledgeGraph)
    (hvalid : ∀ jn ∈ jns, (importedAttrs jn).isSome = true)
    (hfresh : ∀ jn ∈ jns, g.hasNode jn.id = false)
    (hnd : (jns.map JsonNode.id).Nodup) :
    (importNodes jns g).nodes =
      g.nodes ++ jns.map (fun jn => (jn.id, importedAttrsD jn)) := by
  induction jns generalizing g with
  | nil => simp [importNodes]
  | cons jn rest ih =>
    rw [List.map_cons, List.nodup_cons] at hnd
    obtain ⟨a, ha⟩ := Option.isSome_iff_exists.1 (hvalid jn (List.mem_cons_self _ _))
    have hD : importedAttrsD jn = a := by
      rw [importedAttrsD, ha]
      rfl
    have hfalse : ¬ (g.hasNode jn.id = true) := by
      rw [hfresh jn (List.mem_cons_self _ _)]
      exact Bool.false_ne_true
    have hstep : importNode g jn = ⟨g.nodes ++ [(jn.id, a)], g.edges⟩ := by
      rw [importNode, ha]
      show nxAddNode g jn.id a = _
      unfold nxAddNode
      rw [if_neg hfalse]
    have hfresh' : ∀ j ∈ rest,
        KnowledgeGraph.hasNode ⟨g.nodes ++ [(jn.id, a)], g.edges⟩ j.id = false := by
      intro j hj
      rw [hasNode_eq_false_iff]
      simp only [List.map_append, List.map_cons, List.map_nil, List.mem_append,
        List.mem_singleton]
      rintro (hmem | hid)
      · exact (hasNode_eq_false_iff.1 (hfresh j (List.mem_cons_of_mem _ hj))) hmem
      · exact hnd.1 (hid ▸ List.mem_map.2 ⟨j, hj, rfl⟩)
    show (importNodes rest (importNode g jn)).nodes = _
    rw [hstep,
      ih _ (fun j hj => hvalid j (List.mem_cons_of_mem _ hj)) hfresh' hnd.2]
    simp [hD]

theorem importEdges_all_valid (jes : List JsonEdge) (g : KnowledgeGraph)
    (hvalid : ∀ je ∈ jes,
      (∃ s, je.source = some s ∧ s ≠ "" ∧ g.hasNode s = true) ∧
      (∃ t, je.target = some t ∧ t ≠ "" ∧ g.hasNode t = true)) :
    (importEdges jes g).edges = g.edges ++ jes.map importedEdge := by
  induction jes generalizing g with
  | nil => simp [importEdges]
  | cons je rest ih =>
    obtain ⟨⟨s, hs, hs0, hsn⟩, ⟨t, ht, ht0, htn⟩⟩ := hvalid je (List.mem_cons_self _ _)
    have himp : importedEdge je = ⟨s, t, je.relationship.getD "related_to"⟩ := by
      rw [importedEdge, hs, ht]
      rfl
    have hstep : importEdge g je =
        ⟨g.nodes, g.edges ++ [⟨s, t, je.relationship.getD "related_to"⟩]⟩ := by
      rw [importEdge, hs, ht]
      dsimp only
      rw [if_neg (by simp [hs0, ht0]), if_pos (by simp [hsn, htn])]
    have hvalid' : ∀ e ∈ rest,
        (∃ s', e.source = some s' ∧ s' ≠ "" ∧
          KnowledgeGraph.hasNode ⟨g.nodes, g.edges ++
            [⟨s, t, je.relationship.getD "related_to"⟩]⟩ s' = true) ∧
        (∃ t', e.target = some t' ∧ t' ≠ "" ∧
          KnowledgeGraph.hasNode ⟨g.nodes, g.edges ++
            [⟨s, t, je.relationship.getD "related_to"⟩]⟩ t' = true) :=
      fun e he => hvalid e (List.mem_cons_of_mem _ he)
    show (importEdges rest (importEdge g je)).edges = _
    rw [hstep, ih _ hvalid', List.map_cons, himp]
    simp

/-- C7: a well-formed interchange document survives
`export_to_json ∘ import_from_json` unchanged: the import succeeds and the
re-exported document has the same node ids, types and levels and the same
edge `(source, target, relationship)` list as the original. -/
theorem json_round_trip (doc : JsonDoc) (h : doc.WellFormed) :
    ∃ g, import_from_json doc = some g ∧ export_to_json g = doc := by
  obtain ⟨hne, hnd, hnodes, hedges⟩ := h
  have hvalid : ∀ jn ∈ doc.nodes, (importedAttrs jn).isSome = true := by
    intro jn hjn
    obtain ⟨-, htne, hts, hlow, hlk, -⟩ := hnodes jn hjn
    cases hty : jn.type with
    | none => exact absurd hty htne
    | some s =>
      rw [hty] at hts hlow hlk
      simp only [Option.getD_some] at hts hlow hlk
      have heff : effectiveTypeStr jn = s := by
        simp [effectiveTypeStr, hty, hts, hlow]
      obtain ⟨ty, hty2⟩ := Option.isSome_iff_exists.1 hlk
      rw [importedAttrs, heff, hty2]
      rfl
  have hfresh0 : ∀ jn ∈ doc.nodes,
      (⟨[], []⟩ : KnowledgeGraph).hasNode jn.id = false := fun _ _ => rfl
  have hg0 : (importNodes doc.nodes ⟨[], []⟩).nodes =
      doc.nodes.map (fun jn => (jn.id, importedAttrsD jn)) := by
    simpa using importNodes_all_valid doc.nodes ⟨[], []⟩ hvalid hfresh0 hnd
  have hg0edges : (importNodes doc.nodes ⟨[], []⟩).edges = [] :=
    importNodes_edges doc.nodes ⟨[], []⟩
  have hmapfst : (importNodes doc.nodes ⟨[], []⟩).nodes.map Prod.fst =
      doc.nodes.map JsonNode.id := by
    rw [hg0, List.map_map]
    rfl
  have hlen : 0 < (importNodes doc.nodes ⟨[], []⟩).nodes.length := by
    rw [hg0, List.length_map]
    exact List.length_pos.2 hne
  have hedgevalid : ∀ je ∈ doc.edges,
      (∃ s, je.source = some s ∧ s ≠ "" ∧
        (importNodes doc.nodes ⟨[], []⟩).hasNode s = true) ∧
      (∃ t, je.target = some t ∧ t ≠ "" ∧
        (importNodes doc.nodes ⟨[], []⟩).hasNode t = true) := by
    intro je hje
    obtain ⟨hs, hs0, ht, ht0, -, hsm, htm⟩ := hedges je hje
    cases hsrc : je.source with
    | none => exact absurd hsrc hs
    | some s =>
      cases htgt : je.target with
      | none => exact absurd htgt ht
      | some t =>
        rw [hsrc] at hs0 hsm
        rw [htgt] at ht0 htm
        simp only [Option.getD_some] at hs0 hsm ht0 htm
        refine ⟨⟨s, rfl, hs0, hasNode_iff.2 ?_⟩, ⟨t, rfl, ht0, hasNode_iff.2 ?_⟩⟩
        · rw [hmapfst]; exact hsm
        · rw [hmapfst]; exact htm
  have hedgesE : (importEdges doc.edges (importNodes doc.nodes ⟨[], []⟩)).edges =
      (importNodes doc.nodes ⟨[], []⟩).edges ++ doc.edges.map importedEdge :=
    importEdges_all_valid doc.edges _ hedgevalid
  have hnodesE : (importEdges doc.edges (importNodes doc.nodes ⟨[], []⟩)).nodes =
      (importNodes doc.nodes ⟨[], []⟩).nodes :=
    importEdges_nodes doc.edges _
  refine ⟨importEdges doc.edges (importNodes doc.nodes ⟨[], []⟩), ?_, ?_⟩
  · have hcond : ¬ ((importEdges doc.edges (importNodes doc.nodes ⟨[], []⟩)).nodes.length = 0) := by
      rw [hnodesE]
      omega
    simp only [import_from_json]
    rw [if_pos hlen, if_neg hcond]
  · rw [export_to_json]
    have hN : (importEdges doc.edges (importNodes doc.nodes ⟨[], []⟩)).nodes.map
        (fun p : String × NodeAttrs =>
          ({ id := p.1, type := some p.2.type.value, level := some p.2.level,
             url := p.2.metadata.url,
             description := p.2.metadata.description } : JsonNode)) = doc.nodes := by
      rw [hnodesE, hg0, List.map_map]
      refine map_eq_self_of_mem doc.nodes _ ?_
      intro jn hjn
      obtain ⟨-, htne, hts, hlow, hlk, hlev⟩ := hnodes jn hjn
      cases hty : jn.type with
      | none => exact absurd hty htne
      | some s =>
        cases hlv : jn.level with
        | none => exact absurd hlv hlev
        | some l =>
          rw [hty] at hts hlow hlk
          simp only [Option.getD_some] at hts hlow hlk
          obtain ⟨ty, hty2⟩ := Option.isSome_iff_exists.1 hlk
          have heff : effectiveTypeStr jn = s := by
            simp [effectiveTypeStr, hty, hts, hlow]
          have hattrs : importedAttrsD jn = ⟨ty, l, ⟨jn.url, jn.description⟩⟩ := by
            rw [importedAttrsD, importedAttrs, heff, hty2, hlv]
            rfl
          show ({ id := jn.id, type := some (importedAttrsD jn).type.value,
                  level := some (importedAttrsD jn).level,
                  url := (importedAttrsD jn).metadata.url,
                  description := (importedAttrsD jn).metadata.description } : JsonNode) = jn
          rw [hattrs]
          show ({ id := jn.id, type := some ty.value, level := some l,
                  url := jn.url, description := jn.description } : JsonNode) = jn
          rw [lookupType_value hty2, ← hty, ← hlv]
    have hE : (importEdges doc.edges (importNodes doc.nodes ⟨[], []⟩)).edges.map
        (fun e : Edge =>
          ({ source := some e.source, target := some e.target,
             relationship := some e.relationship } : JsonEdge)) = doc.edges := by
      rw [hedgesE, hg0edges, List.nil_append, List.map_map]
      refine map_eq_self_of_mem doc.edges _ ?_
      intro je hje
      obtain ⟨hs, hs0, ht, ht0, hr, -, -⟩ := hedges je hje
      cases hsrc : je.source with
      | none => exact absurd hsrc hs
      | some s =>
        cases htgt : je.target with
        | none => exact absurd htgt ht
        | some t =>
          cases hrel : je.relationship with
          | none => exact absurd hrel hr
          | some r =>
            show ({ source := some (importedEdge je).source,
                    target := some (importedEdge je).target,
                    relationship := some (importedEdge je).relationship } : JsonEdge) = je
            have hie : importedEdge je = ⟨s, t, r⟩ := by
              rw [importedEdge, hsrc, htgt, hrel]
              rfl
            rw [hie]
            show ({ source := some s, target := some t,
                    relationship := some r } : JsonEdge) = je
            rw [← hsrc, ← htgt, ← hrel]
    rw [hN, hE]

/-- A concrete well-formed interchange document. -/
def docRT : JsonDoc :=
  { nodes := [⟨"X", some "main_topic", some 0, some "http://x", none⟩,
              ⟨"Y", some "paper", some 1, none, some "a paper"⟩],
    edges := [⟨some "X", some "Y", some "related_to"⟩] }

theorem json_round_trip_witness :
    docRT.WellFormed ∧
    ∃ g, import_from_json docRT = some g ∧ export_to_json g = docRT :=
  ⟨by decide, json_round_trip docRT (by decide)⟩

end KnowledgeAtlas
